import Mathlib

/-
Verification development for the egui-smith-chart widget (src/src/lib.rs).

The geometric core of the widget is shallowly embedded here.

Numeric modelling conventions:
* Most of the code is embedded over an arbitrary field, instantiated at ℚ
  (for executable, decidable statements) or ℝ (when `f32::sqrt` is involved,
  modelled by `Real.sqrt`).  In this model the arithmetic is exact; the
  tolerance bounds appearing in the testable properties are absorbed by
  exact equalities/inequalities.
* `powf(2.0)` is embedded as squaring and `powf(-2.0)` as `x ^ (-2 : ℤ)`;
  on every argument the code reaches inside its branch domains these agree
  with IEEE `powf` up to rounding.
* For the properties whose content is the production of IEEE special values
  (NaN/infinity) at singular inputs, a second model `F` is used which tracks
  the special values nan, +inf and -inf exactly, with exact real arithmetic on
  finite values (rounding is not modelled; it is irrelevant at the singular
  points considered, which the code hits exactly).  All zero divisors
  produced on the modelled code paths are IEEE +0, so the sign of zero is
  not tracked.
-/

namespace EguiSmith

/-- The plane selector of the widget (src/src/lib.rs, `enum Plane`). -/
inductive Plane
| Impedance
| Admittance
| Both
deriving DecidableEq

/-- An egui `Rect`, modelled by its left/top corner and width/height. -/
structure Rect (K : Type) where
  left : K
  top : K
  width : K
  height : K
deriving DecidableEq

/-- `Rect::expand`: grow the rectangle by `d` on every side. -/
def Rect.expand {K : Type} [Field K] (r : Rect K) (d : K) : Rect K :=
  ⟨r.left - d, r.top - d, r.width + 2 * d, r.height + 2 * d⟩

/-- `Rect::left_bottom`. -/
def Rect.left_bottom {K : Type} [Field K] (r : Rect K) : K × K :=
  (r.left, r.top + r.height)

variable {K : Type} [Field K]

/-- `SmithChart::abs_to_local` (src/src/lib.rs lines 266-272): absolute pixel
coordinates to normalized local coordinates (unit circle inscribed in `rect`,
y pointing up). -/
def abs_to_local (rect : Rect K) (abs : K × K) : K × K :=
  ((abs.1 - rect.left) / rect.width * 2 - 1,
   -(abs.2 - rect.top) / rect.height * 2 + 1)

/-- `SmithChart::local_to_abs` (src/src/lib.rs lines 274-282): normalized local
coordinates back to absolute pixel coordinates. -/
def local_to_abs (rect : Rect K) (v : K × K) : K × K :=
  let x_normalized := (v.1 + 1) / 2
  let y_normalized := (v.2 + 1) / 2
  (rect.left + x_normalized * rect.width,
   rect.top + (1 - y_normalized) * rect.height)

/-- `SmithChart::scale` (src/src/lib.rs lines 284-286): normalized length to
pixel length. -/
def scale (rect : Rect K) (x : K) : K :=
  x * rect.width / 2

/-- Componentwise complex addition (num::Complex `Add`). -/
def cadd (a b : K × K) : K × K := (a.1 + b.1, a.2 + b.2)

/-- Componentwise complex subtraction (num::Complex `Sub`). -/
def csub (a b : K × K) : K × K := (a.1 - b.1, a.2 - b.2)

/-- Complex multiplication (num::Complex `Mul`). -/
def cmul (a b : K × K) : K × K :=
  (a.1 * b.1 - a.2 * b.2, a.1 * b.2 + a.2 * b.1)

/-- Complex division as implemented by num::Complex `Div`: componentwise
quotients by `norm_sqr` of the divisor.  (In this exact field model a
quotient by zero is the field's junk value; the IEEE special-value model
`F` below is used for the properties where that distinction matters.) -/
def cdiv (a b : K × K) : K × K :=
  let d := b.1 * b.1 + b.2 * b.2
  ((a.1 * b.1 + a.2 * b.2) / d, (a.2 * b.1 - a.1 * b.2) / d)

/-- `SmithChart::gamma_to_z` (src/src/lib.rs lines 353-355):
`(1 + gamma) / (1 - gamma)`, with no branch on `gamma = 1`. -/
def gamma_to_z (gamma : K × K) : K × K :=
  cdiv (cadd (1, 0) gamma) (csub (1, 0) gamma)

/-- `SmithChart::z_to_gamma` (src/src/lib.rs lines 357-359):
`(z - 1) / (z + 1)`, with no branch on `z = -1`. -/
def z_to_gamma (z : K × K) : K × K :=
  cdiv (csub z (1, 0)) (cadd z (1, 0))

/-- `SmithChart::local_to_gamma` (src/src/lib.rs lines 342-347). -/
def local_to_gamma (v : K × K) : K × K := (v.1, -v.2)

/-- `SmithChart::gamma_to_local` (src/src/lib.rs lines 349-351). -/
def gamma_to_local (gamma : K × K) : K × K := (gamma.1, -gamma.2)

/-- The distinct colour values appearing in the widget's painter calls.
Colours are owned by the host framework (egui); only their identity matters
for the render model.  `fg` stands for the externally supplied
`visuals.fg_stroke.color`. -/
inductive ColorV
| fg
| green
| red
| white
| gold
| transparent
| darkRed
| debugPink
deriving DecidableEq

/-- The only text anchor the widget uses (`Align2::LEFT_CENTER`). -/
inductive Anchor
| leftCenter
deriving DecidableEq

/-- Payload of a text painter call: the numeric values the widget formats
(`Z0`, `r`/`R`, `x`/`X`).  String formatting is presentation only and is
abstracted to the carried values. -/
inductive TextVal (K : Type)
| z0 (v : K × K)
| rR (rv Rv : K)
| xX (xv Xv : K)
deriving DecidableEq

/-- One painter call issued by the widget's render path. -/
inductive Cmd (K : Type)
| path (points : List (K × K)) (stroke : K × ColorV)
| circle (center : K × K) (radius : K) (fill : ColorV) (stroke : K × ColorV)
| segment (p1 p2 : K × K) (stroke : K × ColorV)
| text (pos : K × K) (anchor : Anchor) (val : TextVal K) (fontSize : K)
    (color : ColorV)
| rect (r : Rect K) (fill : ColorV) (stroke : K × ColorV)
deriving DecidableEq

/-- `SmithChart::resistance_circle` (src/src/lib.rs lines 288-295): paints the
constant-resistance circle for parameter `r`, computed in normalized local
space as centre `(r/(1+r), 0)` and radius `1/(1+r)`, then mapped to pixels
through `local_to_abs` and `scale` on the painter's clip rectangle. -/
def resistance_circle (rect : Rect K) (r : K) (stroke : K × ColorV) : Cmd K :=
  let rel_center : K × K := (r / (1 + r), 0)
  let rel_radius : K := 1 / (1 + r)
  Cmd.circle (local_to_abs rect rel_center) (scale rect rel_radius)
    ColorV.transparent stroke

/-- `egui::remap` composed with `egui::lerp`:
`remap x from to = lerp to ((x - from.start) / (from.end - from.start))`
where `lerp r t = (1 - t) * r.start + t * r.end`. -/
def remap (x a b c d : K) : K :=
  let t := (x - a) / (b - a)
  (1 - t) * c + t * d

/-- The sweep endpoint `yend = 2x / (1 + x^2)` of the `|x| >= 1` branch of
`SmithChart::reactance_arc` (src/src/lib.rs line 305); `powf(2.0)` is
embedded as squaring. -/
def yend (x : K) : K := 2 * x / (1 + x ^ 2)

/-- The sweep start `xstart = (x^2 - 1) / (x^2 + 1)` of the `|x| < 1` branch
of `SmithChart::reactance_arc` (src/src/lib.rs line 320). -/
def xstart (x : K) : K := (x ^ 2 - 1) / (x ^ 2 + 1)

end EguiSmith

namespace EguiSmith

/-- Inner function `x_gt_one_arc` of `SmithChart::reactance_arc`
(src/src/lib.rs lines 308-310): real gamma coordinate
`1 - sqrt(gi * (2 - x*gi) / x)`, with `f32::sqrt` modelled by `Real.sqrt`.
No clamping of the radicand is performed by the code. -/
noncomputable def x_gt_one_arc (x gi : ℝ) : ℝ :=
  1 - Real.sqrt ((gi * (2 - x * gi)) / x)

/-- Inner function `x_lt_one_arc` of `SmithChart::reactance_arc`
(src/src/lib.rs lines 323-329): imaginary gamma coordinate
`1/x ∓ sqrt(x^-2 - (gr-1)^2)` depending on the sign of `x`.  `powf(-2.0)` is
embedded as `x ^ (-2 : ℤ)` and `f32::sqrt` by `Real.sqrt`.  No clamping of
the radicand is performed by the code. -/
noncomputable def x_lt_one_arc (x gr : ℝ) : ℝ :=
  if 0 < x then 1 / x - Real.sqrt (x ^ (-2 : ℤ) - (gr - 1) ^ 2)
  else 1 / x + Real.sqrt (x ^ (-2 : ℤ) - (gr - 1) ^ 2)

/-- The `i`-th sampled point of `SmithChart::reactance_arc`
(src/src/lib.rs lines 297-340) in normalized local space, before the
`local_to_abs` pixel mapping: the code branches on `x.abs() >= 1.0` and
sweeps `i = 0..=128` through `egui::remap`. -/
noncomputable def reactance_point (x : ℝ) (i : ℕ) : ℝ × ℝ :=
  if 1 ≤ |x| then
    (x_gt_one_arc x (remap (i : ℝ) 0 128 0 (yend x)),
     remap (i : ℝ) 0 128 0 (yend x))
  else
    (remap (i : ℝ) 0 128 (xstart x) 1,
     x_lt_one_arc x (remap (i : ℝ) 0 128 (xstart x) 1))

/-- `SmithChart::reactance_arc` as a painter call: the polyline through the
129 sampled points mapped to pixel space (src/src/lib.rs lines 297-340). -/
noncomputable def reactance_arc (rect : Rect ℝ) (x : ℝ) (stroke : ℝ × ColorV) :
    Cmd ℝ :=
  Cmd.path (((List.range 129).map
    (fun i => local_to_abs rect (reactance_point x i)))) stroke

/-- The exact argument passed to `f32::sqrt` at sample `i` of
`SmithChart::reactance_arc`, extracted from `x_gt_one_arc` / `x_lt_one_arc`
at the swept parameter of sample `i` (following the branch on
`x.abs() >= 1.0`). -/
noncomputable def sample_radicand (x : ℝ) (i : ℕ) : ℝ :=
  if 1 ≤ |x| then
    (remap (i : ℝ) 0 128 0 (yend x) *
      (2 - x * remap (i : ℝ) 0 128 0 (yend x))) / x
  else
    x ^ (-2 : ℤ) - (remap (i : ℝ) 0 128 (xstart x) 1 - 1) ^ 2

end EguiSmith

namespace EguiSmith

/-- The widget's configuration state (src/src/lib.rs lines 34-51).  `Id::new`
hashing is abstracted: the id source is carried as a value. -/
structure SmithChart (K : Type) where
  id_source : ℕ
  Z0 : K × K
  plane : Plane
  size : K
  debug : Bool
  mouse_vswr : Bool

/-- `SmithChart::new` (src/src/lib.rs lines 52-62): the default configuration
`Z0 = 50 + 0i`, impedance plane, size 64, debug and VSWR overlays off. -/
def SmithChart.new {K : Type} [Field K] (id_source : ℕ) : SmithChart K :=
  ⟨id_source, (50, 0), Plane.Impedance, 64, false, false⟩

/-- Builder method `plane` (src/src/lib.rs lines 245-248).  Primed because
Lean does not allow a method and a field projection to share a name. -/
def SmithChart.plane' {K : Type} (c : SmithChart K) (plane : Plane) : SmithChart K :=
  { c with plane := plane }

/-- Builder method `size` (src/src/lib.rs lines 250-253). -/
def SmithChart.size' {K : Type} (c : SmithChart K) (size : K) : SmithChart K :=
  { c with size := size }

/-- Builder method `mouse_vswr` (src/src/lib.rs lines 255-258). -/
def SmithChart.mouse_vswr' {K : Type} (c : SmithChart K) (b : Bool) : SmithChart K :=
  { c with mouse_vswr := b }

/-- Builder method `debug` (src/src/lib.rs lines 260-263). -/
def SmithChart.debug' {K : Type} (c : SmithChart K) (debug : Bool) : SmithChart K :=
  { c with debug := debug }

/-- `egui::Vec2::length`: `sqrt(x^2 + y^2)`. -/
noncomputable def vecLength (v : ℝ × ℝ) : ℝ := Real.sqrt (v.1 ^ 2 + v.2 ^ 2)

/-- The pointer guard of the render path (src/src/lib.rs line 153): the
interactive curves, readouts and VSWR circle are generated only when
`local_pos.length() < 1.0`. -/
noncomputable def mouse_in_chart (v : ℝ × ℝ) : Prop := vecLength v < 1

noncomputable instance (v : ℝ × ℝ) : Decidable (mouse_in_chart v) :=
  inferInstanceAs (Decidable (vecLength v < 1))

/-- The full sequence of painter calls of `SmithChart::show`
(src/src/lib.rs lines 64-242), as a function of the configuration, the
allocated rectangle, the hover position, the visibility test delegated to
the host and the style expansion.  Faithful details: `local_pos` is computed
from the unexpanded rectangle; the curve helpers use the painter's clip
rectangle (also unexpanded); the axis, text anchors and debug shapes use the
shadowed expanded rectangle.  The conditional debug `println!` is console
output, not a painter call, and is not part of the drawn output. -/
noncomputable def showDraw (c : SmithChart ℝ) (rect : Rect ℝ)
    (hover : Option (ℝ × ℝ)) (visible : Bool) (expansion : ℝ) : List (Cmd ℝ) :=
  let local_pos := hover.map (fun pos => abs_to_local rect pos)
  if visible then
    let normal_line : ℝ × ColorV := (1, ColorV.fg)
    let strong_line : ℝ × ColorV := (3, ColorV.fg)
    let rect' := rect.expand expansion
    (([0.4, 1.0, 3.0] : List ℝ).flatMap
      (fun x => [reactance_arc rect x normal_line, reactance_arc rect (-x) normal_line]))
    ++ ([0, 1/3, 1, 3] : List ℝ).map (fun r => resistance_circle rect r normal_line)
    ++ ([0, 1] : List ℝ).map (fun r => resistance_circle rect r strong_line)
    ++ [Cmd.segment (local_to_abs rect' (-1, 0)) (local_to_abs rect' (1, 0)) normal_line]
    ++ (match local_pos with
        | none => []
        | some lp =>
          let mouse_impedance := gamma_to_z lp
          if mouse_in_chart lp then
            [resistance_circle rect mouse_impedance.1 (1, ColorV.green),
             reactance_arc rect mouse_impedance.2 (1, ColorV.red),
             Cmd.text (rect'.left_bottom.1 + 0, rect'.left_bottom.2 + (-(3 * 14)))
               Anchor.leftCenter (TextVal.z0 c.Z0) 14 ColorV.white,
             Cmd.text (rect'.left_bottom.1 + 0, rect'.left_bottom.2 + (-(2 * 14)))
               Anchor.leftCenter
               (TextVal.rR mouse_impedance.1 ((cmul mouse_impedance c.Z0).1)) 14
               ColorV.green,
             Cmd.text (rect'.left_bottom.1 + 0, rect'.left_bottom.2 + (-14))
               Anchor.leftCenter
               (TextVal.xX mouse_impedance.2 ((cmul mouse_impedance c.Z0).2)) 14
               ColorV.red]
            ++ (if c.mouse_vswr then
                  [Cmd.circle (local_to_abs rect (0, 0)) (scale rect (vecLength lp))
                     ColorV.transparent (1, ColorV.gold)]
                else [])
          else [])
    ++ (if c.debug then
          [Cmd.circle (local_to_abs rect' (0, 0)) 1 ColorV.transparent (5, ColorV.debugPink)]
          ++ (match hover with
              | some pos => [Cmd.segment (local_to_abs rect' (0, 0)) pos (1, ColorV.darkRed)]
              | none => [])
          ++ [Cmd.rect rect' ColorV.transparent (1, ColorV.debugPink)]
        else [])
  else []

end EguiSmith

namespace EguiSmith

/-- IEEE f32 special-value model: a finite value (held exactly as a real;
rounding is not modelled), +infinity, -infinity, or NaN.  Used for the
properties about the code's behaviour at its singular inputs, which the
code hits exactly.  The zero divisors arising on the modelled code paths
are all IEEE +0, so the sign of zero is not tracked. -/
inductive F
| fin (v : ℝ)
| pinf
| ninf
| nan

namespace F

/-- IEEE negation. -/
noncomputable def neg : F → F
| fin a => fin (-a)
| pinf => ninf
| ninf => pinf
| nan => nan

/-- IEEE addition with special values. -/
noncomputable def add : F → F → F
| fin a, fin b => fin (a + b)
| fin _, pinf => pinf
| fin _, ninf => ninf
| pinf, fin _ => pinf
| ninf, fin _ => ninf
| pinf, pinf => pinf
| ninf, ninf => ninf
| pinf, ninf => nan
| ninf, pinf => nan
| nan, _ => nan
| _, nan => nan

/-- IEEE subtraction, `a - b = a + (-b)`. -/
noncomputable def sub (a b : F) : F := add a (neg b)

/-- IEEE multiplication with special values (`0 * inf = nan`). -/
noncomputable def mul : F → F → F
| fin a, fin b => fin (a * b)
| fin a, pinf => if a = 0 then nan else if 0 < a then pinf else ninf
| fin a, ninf => if a = 0 then nan else if 0 < a then ninf else pinf
| pinf, fin b => if b = 0 then nan else if 0 < b then pinf else ninf
| ninf, fin b => if b = 0 then nan else if 0 < b then ninf else pinf
| pinf, pinf => pinf
| pinf, ninf => ninf
| ninf, pinf => ninf
| ninf, ninf => pinf
| nan, _ => nan
| _, nan => nan

/-- IEEE division with special values: a finite value divided by (+)0 gives
`0/0 = nan` or a signed infinity; `inf/inf = nan`; finite over infinite
gives 0. -/
noncomputable def div : F → F → F
| fin a, fin b =>
    if b = 0 then (if a = 0 then nan else if 0 < a then pinf else ninf)
    else fin (a / b)
| fin _, pinf => fin 0
| fin _, ninf => fin 0
| pinf, fin b => if 0 ≤ b then pinf else ninf
| ninf, fin b => if 0 ≤ b then ninf else pinf
| pinf, pinf => nan
| pinf, ninf => nan
| ninf, pinf => nan
| ninf, ninf => nan
| nan, _ => nan
| _, nan => nan

/-- IEEE `sqrt`: NaN on negative arguments, +inf on +inf. -/
noncomputable def sqrt : F → F
| fin a => if a < 0 then nan else fin (Real.sqrt a)
| pinf => pinf
| ninf => nan
| nan => nan

/-- The IEEE comparison `x > 0.0` (false on NaN). -/
def gtZero : F → Prop
| fin a => 0 < a
| pinf => True
| ninf => False
| nan => False

noncomputable instance (x : F) : Decidable (gtZero x) :=
  match x with
  | fin a => inferInstanceAs (Decidable (0 < a))
  | pinf => inferInstanceAs (Decidable True)
  | ninf => inferInstanceAs (Decidable False)
  | nan => inferInstanceAs (Decidable False)

/-- The IEEE comparison `x.abs() >= 1.0` (false on NaN). -/
def absGeOne : F → Prop
| fin a => 1 ≤ |a|
| pinf => True
| ninf => True
| nan => False

noncomputable instance (x : F) : Decidable (absGeOne x) :=
  match x with
  | fin a => inferInstanceAs (Decidable (1 ≤ |a|))
  | pinf => inferInstanceAs (Decidable True)
  | ninf => inferInstanceAs (Decidable True)
  | nan => inferInstanceAs (Decidable False)

/-- `t.powf(2.0)`, equal to `t * t` for every input including the special
values. -/
noncomputable def powf2 (t : F) : F := mul t t

/-- `t.powf(-2.0)`, equal to `1 / (t * t)` for every input including the
special values (`powf(±0, -2) = +inf`, `powf(±inf, -2) = +0`). -/
noncomputable def powfNeg2 (t : F) : F := div (fin 1) (mul t t)

end F

/-- num::Complex addition in the special-value model. -/
noncomputable def caddF (a b : F × F) : F × F := (F.add a.1 b.1, F.add a.2 b.2)

/-- num::Complex subtraction in the special-value model. -/
noncomputable def csubF (a b : F × F) : F × F := (F.sub a.1 b.1, F.sub a.2 b.2)

/-- num::Complex division in the special-value model: the same componentwise
`norm_sqr` formula as `cdiv`, with IEEE special-value propagation. -/
noncomputable def cdivF (a b : F × F) : F × F :=
  let d := F.add (F.mul b.1 b.1) (F.mul b.2 b.2)
  (F.div (F.add (F.mul a.1 b.1) (F.mul a.2 b.2)) d,
   F.div (F.sub (F.mul a.2 b.1) (F.mul a.1 b.2)) d)

/-- `SmithChart::gamma_to_z` in the special-value model (src/src/lib.rs
lines 353-355): the division is performed unconditionally. -/
noncomputable def gamma_to_zF (gamma : F × F) : F × F :=
  cdivF (caddF (F.fin 1, F.fin 0) gamma) (csubF (F.fin 1, F.fin 0) gamma)

/-- `SmithChart::z_to_gamma` in the special-value model (src/src/lib.rs
lines 357-359): the division is performed unconditionally. -/
noncomputable def z_to_gammaF (z : F × F) : F × F :=
  cdivF (csubF z (F.fin 1, F.fin 0)) (caddF z (F.fin 1, F.fin 0))

/-- `x_lt_one_arc` in the special-value model (src/src/lib.rs lines
323-329). -/
noncomputable def x_lt_one_arcF (x gr : F) : F :=
  if F.gtZero x then
    F.sub (F.div (F.fin 1) x)
      (F.sqrt (F.sub (F.powfNeg2 x) (F.powf2 (F.sub gr (F.fin 1)))))
  else
    F.add (F.div (F.fin 1) x)
      (F.sqrt (F.sub (F.powfNeg2 x) (F.powf2 (F.sub gr (F.fin 1)))))

/-- `x_gt_one_arc` in the special-value model (src/src/lib.rs lines
308-310). -/
noncomputable def x_gt_one_arcF (x gi : F) : F :=
  F.sub (F.fin 1) (F.sqrt (F.div (F.mul gi (F.sub (F.fin 2) (F.mul x gi))) x))

/-- The sweep endpoint `yend` in the special-value model. -/
noncomputable def yendF (x : F) : F :=
  F.div (F.mul (F.fin 2) x) (F.add (F.fin 1) (F.powf2 x))

/-- The sweep start `xstart` in the special-value model. -/
noncomputable def xstartF (x : F) : F :=
  F.div (F.sub (F.powf2 x) (F.fin 1)) (F.add (F.powf2 x) (F.fin 1))

/-- `egui::remap`/`egui::lerp` in the special-value model. -/
noncomputable def remapF (v a b c d : F) : F :=
  let t := F.div (F.sub v a) (F.sub b a)
  F.add (F.mul (F.sub (F.fin 1) t) c) (F.mul t d)

/-- The `i`-th sampled point of `SmithChart::reactance_arc` in the
special-value model (src/src/lib.rs lines 297-340): no branch other than
the `x.abs() >= 1.0` / sign-of-`x` branches taken from the source; in
particular there is no special case for `x = 0`. -/
noncomputable def reactance_pointF (x : F) (i : ℕ) : F × F :=
  if F.absGeOne x then
    (x_gt_one_arcF x (remapF (F.fin i) (F.fin 0) (F.fin 128) (F.fin 0) (yendF x)),
     remapF (F.fin i) (F.fin 0) (F.fin 128) (F.fin 0) (yendF x))
  else
    (remapF (F.fin i) (F.fin 0) (F.fin 128) (xstartF x) (F.fin 1),
     x_lt_one_arcF x (remapF (F.fin i) (F.fin 0) (F.fin 128) (xstartF x) (F.fin 1)))

end EguiSmith

namespace EguiSmith

lemma remap_01 (v e : ℝ) : remap v 0 128 0 e = v / 128 * e := by
  simp only [remap]
  ring

lemma remap_xs (v c : ℝ) : remap v 0 128 c 1 = (1 - v / 128) * c + v / 128 := by
  simp only [remap]
  ring

lemma zpow_neg_two_eq (x : ℝ) : x ^ (-2 : ℤ) = 1 / x ^ 2 := by
  rw [zpow_neg, one_div]
  norm_cast

lemma yend_neg (x : ℝ) : yend (-x) = -yend x := by
  simp only [yend, neg_sq]
  ring

lemma xstart_neg (x : ℝ) : xstart (-x) = xstart x := by
  simp only [xstart, neg_sq]

lemma x_gt_one_arc_neg (x gi : ℝ) : x_gt_one_arc (-x) (-gi) = x_gt_one_arc x gi := by
  unfold x_gt_one_arc
  rw [show (-gi * (2 - -x * -gi)) = -(gi * (2 - x * gi)) from by ring, neg_div_neg_eq]

lemma x_lt_one_arc_neg (x gr : ℝ) (hx : x ≠ 0) :
    x_lt_one_arc (-x) gr = -(x_lt_one_arc x gr) := by
  unfold x_lt_one_arc
  have hpow : (-x : ℝ) ^ (-2 : ℤ) = x ^ (-2 : ℤ) := by
    rw [zpow_neg_two_eq, zpow_neg_two_eq, neg_sq]
  by_cases hp : 0 < x
  · rw [if_neg (by linarith), if_pos hp, hpow]
    ring
  · have hneg : x < 0 := lt_of_le_of_ne (not_lt.mp hp) hx
    rw [if_pos (by linarith), if_neg hp, hpow]
    ring

/-- Mirror symmetry of the sampled arc points: negating the reactance
parameter negates the y coordinate and preserves the x coordinate. -/
lemma reactance_point_neg (x : ℝ) (hx : x ≠ 0) (i : ℕ) :
    reactance_point (-x) i = ((reactance_point x i).1, -(reactance_point x i).2) := by
  unfold reactance_point
  rw [abs_neg]
  by_cases h : 1 ≤ |x|
  · rw [if_pos h, if_pos h]
    have hr : remap (i : ℝ) 0 128 0 (yend (-x)) = -(remap (i : ℝ) 0 128 0 (yend x)) := by
      rw [yend_neg, remap_01, remap_01]
      ring
    rw [hr, x_gt_one_arc_neg]
  · rw [if_neg h, if_neg h, xstart_neg, x_lt_one_arc_neg x _ hx]

lemma normsq_le_one_ge_branch (x t : ℝ) (hx : 0 < x) (ht0 : 0 ≤ t) (ht1 : t ≤ 1) :
    (x_gt_one_arc x (t * yend x)) ^ 2 + (t * yend x) ^ 2 ≤ 1 := by
  have hx2 : (0 : ℝ) < 1 + x ^ 2 := by positivity
  set g := t * yend x with hg
  have hrad : (g * (2 - x * g)) / x = 4 * t * (1 + (1 - t) * x ^ 2) / (1 + x ^ 2) ^ 2 := by
    simp only [hg, yend]
    field_simp
    ring
  have hrad0 : 0 ≤ (g * (2 - x * g)) / x := by
    rw [hrad]
    apply div_nonneg
    · nlinarith [sq_nonneg x,
        mul_nonneg (mul_nonneg ht0 (by linarith : (0:ℝ) ≤ 1 - t)) (sq_nonneg x)]
    · positivity
  set s := Real.sqrt ((g * (2 - x * g)) / x) with hs
  have hs0 : 0 ≤ s := Real.sqrt_nonneg _
  have hs2 : s ^ 2 = (g * (2 - x * g)) / x := Real.sq_sqrt hrad0
  have hu : g / x = 2 * t / (1 + x ^ 2) := by
    simp only [hg, yend]
    field_simp
    ring
  have hu0 : 0 ≤ g / x := by rw [hu]; positivity
  have huleq : (g / x) ^ 2 ≤ s ^ 2 := by
    have hnum : (2 * t) ^ 2 ≤ 4 * t * (1 + (1 - t) * x ^ 2) := by
      nlinarith [mul_nonneg (mul_nonneg ht0 (by linarith : (0:ℝ) ≤ 1 - t)) (sq_nonneg x)]
    calc (g / x) ^ 2 = (2 * t) ^ 2 / ((1 + x ^ 2) ^ 2) := by rw [hu, div_pow]
      _ ≤ (4 * t * (1 + (1 - t) * x ^ 2)) / ((1 + x ^ 2) ^ 2) := by gcongr
      _ = s ^ 2 := by rw [hs2, hrad]
  have hule : g / x ≤ s := by nlinarith [huleq, hs0, hu0]
  have hsum : s ^ 2 + g ^ 2 = 2 * (g / x) := by
    rw [hs2]
    field_simp
    ring
  have harc : x_gt_one_arc x g = 1 - s := by
    simp only [x_gt_one_arc]
  rw [harc]
  have hexp : (1 - s) ^ 2 + g ^ 2 = 1 - 2 * s + (s ^ 2 + g ^ 2) := by ring
  rw [hexp, hsum]
  linarith [hule]

lemma normsq_le_one_lt_branch (x t : ℝ) (hx : 0 < x) (ht0 : 0 ≤ t) (ht1 : t ≤ 1) :
    ((1 - t) * xstart x + t) ^ 2 + (x_lt_one_arc x ((1 - t) * xstart x + t)) ^ 2 ≤ 1 := by
  have hx2 : (0 : ℝ) < x ^ 2 + 1 := by positivity
  obtain ⟨d, hd⟩ : ∃ d : ℝ, d = 2 * (1 - t) / (x ^ 2 + 1) := ⟨_, rfl⟩
  have hgr1 : (1 - t) * xstart x + t - 1 = -d := by
    rw [hd]
    simp only [xstart]
    field_simp
    ring
  have hd0 : 0 ≤ d := by
    rw [hd]
    exact div_nonneg (by linarith) hx2.le
  have hdb : d * (x ^ 2 + 1) = 2 * (1 - t) := by
    rw [hd]
    field_simp
  have hd2 : d * (x ^ 2 + 1) ≤ 2 := by rw [hdb]; linarith
  have hrad : x ^ (-2 : ℤ) - ((1 - t) * xstart x + t - 1) ^ 2 = 1 / x ^ 2 - d ^ 2 := by
    rw [zpow_neg_two_eq, hgr1]
    ring
  have h2x : 2 * x ≤ x ^ 2 + 1 := by nlinarith [sq_nonneg (x - 1)]
  have hdx : d * x ≤ 1 := by
    rw [hd, div_mul_eq_mul_div, div_le_one hx2]
    nlinarith [mul_nonneg ht0 hx.le]
  have hrad0 : 0 ≤ 1 / x ^ 2 - d ^ 2 := by
    have hsq : d ^ 2 * x ^ 2 ≤ 1 := by nlinarith [mul_nonneg hd0 hx.le]
    rw [sub_nonneg, le_div_iff₀ (by positivity : (0 : ℝ) < x ^ 2)]
    exact hsq
  obtain ⟨s, hs⟩ :
      ∃ s : ℝ, s = Real.sqrt (x ^ (-2 : ℤ) - ((1 - t) * xstart x + t - 1) ^ 2) := ⟨_, rfl⟩
  have hs0 : 0 ≤ s := hs ▸ Real.sqrt_nonneg _
  have hs2 : s ^ 2 = 1 / x ^ 2 - d ^ 2 := by
    rw [hs, hrad]
    exact Real.sq_sqrt hrad0
  have harc : x_lt_one_arc x ((1 - t) * xstart x + t) = 1 / x - s := by
    simp only [x_lt_one_arc]
    rw [if_pos hx, hs]
  have hs2' : s ^ 2 = (1 / x) ^ 2 - d ^ 2 := by rw [hs2]; ring
  have h3 : d * x * (1 / x) = d := by field_simp
  have hkey : 1 / x - d * x ≤ s := by
    rcases le_or_lt (1 / x - d * x) 0 with hc | hc
    · linarith
    · have hsqle : (1 / x - d * x) ^ 2 ≤ s ^ 2 := by
        rw [hs2']
        nlinarith [h3, mul_le_mul_of_nonneg_left hd2 hd0]
      nlinarith [hsqle, hs0, hc.le]
  have hfin : (1 / x) ^ 2 - d ≤ s * (1 / x) := by
    have hdivle : (1 / x - d * x) / x ≤ s / x := (div_le_div_iff_of_pos_right hx).mpr hkey
    have heq : (1 / x - d * x) / x = (1 / x) ^ 2 - d := by
      field_simp
      ring
    have heq2 : s / x = s * (1 / x) := by ring
    rw [heq, heq2] at hdivle
    exact hdivle
  rw [harc]
  have hgreq : (1 - t) * xstart x + t = 1 - d := by linarith [hgr1]
  rw [hgreq]
  nlinarith [hfin, hs2']

/-- Every sampled arc point for a positive reactance parameter lies at or
inside the unit circle, exactly. -/
lemma normsq_le_one_pos (x : ℝ) (hx : 0 < x) (i : ℕ) (hi : i ≤ 128) :
    (reactance_point x i).1 ^ 2 + (reactance_point x i).2 ^ 2 ≤ 1 := by
  have ht0 : (0 : ℝ) ≤ (i : ℝ) / 128 := by positivity
  have ht1 : (i : ℝ) / 128 ≤ 1 := by
    rw [div_le_one (by norm_num)]
    exact_mod_cast hi
  unfold reactance_point
  by_cases h : 1 ≤ |x|
  · rw [if_pos h]
    dsimp only
    rw [remap_01]
    exact normsq_le_one_ge_branch x ((i : ℝ) / 128) hx ht0 ht1
  · rw [if_neg h]
    dsimp only
    rw [remap_xs]
    exact normsq_le_one_lt_branch x ((i : ℝ) / 128) hx ht0 ht1

/-- Multiplying the num-style quotient `cdiv a b` back by `b` recovers `a`
whenever the divisor's `norm_sqr` is nonzero. -/
lemma cdiv_cmul {K : Type} [Field K] (a b : K × K)
    (hb : b.1 * b.1 + b.2 * b.2 ≠ 0) : cmul (cdiv a b) b = a := by
  obtain ⟨a1, a2⟩ := a
  obtain ⟨b1, b2⟩ := b
  simp only [cdiv, cmul] at *
  rw [Prod.mk.injEq]
  constructor <;> (field_simp; ring)

/-- Cancellation for `cmul` by a factor of nonzero `norm_sqr`, via the
multiplicativity of `norm_sqr`. -/
lemma cmul_right_cancel {K : Type} [LinearOrderedField K] {a b c : K × K}
    (hb : b.1 * b.1 + b.2 * b.2 ≠ 0) (h : cmul a b = cmul c b) : a = c := by
  obtain ⟨a1, a2⟩ := a
  obtain ⟨b1, b2⟩ := b
  obtain ⟨c1, c2⟩ := c
  simp only [cmul, Prod.mk.injEq] at h hb ⊢
  obtain ⟨h1, h2⟩ := h
  have key : ((a1 - c1) * (a1 - c1) + (a2 - c2) * (a2 - c2)) * (b1 * b1 + b2 * b2) = 0 := by
    nlinarith [h1, h2, sq_nonneg (a1 - c1), sq_nonneg (a2 - c2)]
  have hz : (a1 - c1) * (a1 - c1) + (a2 - c2) * (a2 - c2) = 0 := by
    rcases mul_eq_zero.mp key with h | h
    · exact h
    · exact absurd h hb
  constructor
  · nlinarith [sq_nonneg (a1 - c1), sq_nonneg (a2 - c2)]
  · nlinarith [sq_nonneg (a1 - c1), sq_nonneg (a2 - c2)]

/-- At the singular input `gamma = 1` the unguarded division of
`gamma_to_z` is performed with a zero `norm_sqr` and both components come
out NaN (`0/0`). -/
lemma gamma_to_zF_one : gamma_to_zF (F.fin 1, F.fin 0) = (F.nan, F.nan) := by
  simp only [gamma_to_zF, caddF, csubF, cdivF, F.add, F.sub, F.neg, F.mul, F.div]
  norm_num

/-- At the singular input `z = -1` the unguarded division of `z_to_gamma`
is performed with a zero `norm_sqr` and both components come out NaN. -/
lemma z_to_gammaF_neg_one : z_to_gammaF (F.fin (-1), F.fin 0) = (F.nan, F.nan) := by
  simp only [z_to_gammaF, caddF, csubF, cdivF, F.add, F.sub, F.neg, F.mul, F.div]
  norm_num

/-- At `x = 0` the `|x| < 1` formula evaluates `1/0 = +inf` and
`0.powf(-2) = +inf`, so the computed gamma imaginary coordinate is +inf for
every swept `gr`. -/
lemma x_lt_one_arcF_zero (c : ℝ) : x_lt_one_arcF (F.fin 0) (F.fin c) = F.pinf := by
  simp only [x_lt_one_arcF, F.gtZero, F.powfNeg2, F.powf2, F.div, F.mul, F.sub,
    F.add, F.neg, F.sqrt]
  norm_num

/-- The local position corresponding to `gamma = 1` has length exactly 1 and
therefore fails the `length < 1` pointer guard. -/
lemma not_mouse_in_chart_one : ¬ mouse_in_chart (1, 0) := by
  simp only [mouse_in_chart, vecLength]
  norm_num

end EguiSmith

namespace EguiSmith

/-- C4: round-trip of the pixel/local transform, exact over ℚ (hence within
the claimed 1e-5 tolerance).  Requires nonzero width and height. -/
theorem c4_pixel_round_trip (rect : Rect ℚ) (p : ℚ × ℚ)
    (hw : rect.width ≠ 0) (hh : rect.height ≠ 0) :
    |(local_to_abs rect (abs_to_local rect p)).1 - p.1| ≤ 1 / 100000 ∧
    |(local_to_abs rect (abs_to_local rect p)).2 - p.2| ≤ 1 / 100000 := by
  have hx : (local_to_abs rect (abs_to_local rect p)).1 = p.1 := by
    simp only [local_to_abs, abs_to_local]
    field_simp
    ring
  have hy : (local_to_abs rect (abs_to_local rect p)).2 = p.2 := by
    simp only [local_to_abs, abs_to_local]
    field_simp
    ring
  rw [hx, hy]
  norm_num

/-- Witness for C4 at a concrete rectangle and pixel point. -/
theorem c4_pixel_round_trip_witness :
    (400 : ℚ) ≠ 0 ∧
    (|(local_to_abs ⟨0, 0, 400, 400⟩
        (abs_to_local (⟨0, 0, 400, 400⟩ : Rect ℚ) (123, 45))).1 - 123| ≤ 1 / 100000 ∧
     |(local_to_abs ⟨0, 0, 400, 400⟩
        (abs_to_local (⟨0, 0, 400, 400⟩ : Rect ℚ) (123, 45))).2 - 45| ≤ 1 / 100000) :=
  ⟨by norm_num,
   c4_pixel_round_trip ⟨0, 0, 400, 400⟩ (123, 45) (by norm_num) (by norm_num)⟩

/-- C5: round-trip of the gamma/impedance conversions.  For every reflection
coefficient `g ≠ 1` the composite `z_to_gamma (gamma_to_z g)` returns `g`
exactly over ℚ (hence within any tolerance). -/
theorem c5_gamma_round_trip (g : ℚ × ℚ) (hg : g ≠ (1, 0)) :
    z_to_gamma (gamma_to_z g) = g := by
  obtain ⟨gr, gi⟩ := g
  have hne : ¬(gr = 1 ∧ gi = 0) := by
    intro ⟨h1, h2⟩; exact hg (by rw [h1, h2])
  have hd : (1 - gr) * (1 - gr) + gi * gi ≠ 0 := by
    intro h
    exact hne ⟨by nlinarith [sq_nonneg (1 - gr), sq_nonneg gi],
               by nlinarith [sq_nonneg (1 - gr), sq_nonneg gi]⟩
  set z := gamma_to_z (gr, gi) with hzdef
  have hz1 : z.1 = (1 - gr * gr - gi * gi) / ((1 - gr) * (1 - gr) + gi * gi) := by
    simp only [hzdef, gamma_to_z, cadd, csub, cdiv]
    ring_nf
  have hz2 : z.2 = (2 * gi) / ((1 - gr) * (1 - gr) + gi * gi) := by
    simp only [hzdef, gamma_to_z, cadd, csub, cdiv]
    ring_nf
  have hsum : (z.1 + 1) * (z.1 + 1) + (z.2 + 0) * (z.2 + 0) =
      4 / ((1 - gr) * (1 - gr) + gi * gi) := by
    rw [hz1, hz2]
    field_simp
    ring
  have hb : (cadd z (1, 0)).1 * (cadd z (1, 0)).1 +
      (cadd z (1, 0)).2 * (cadd z (1, 0)).2 ≠ 0 := by
    simp only [cadd]
    rw [hsum]
    exact div_ne_zero (by norm_num) hd
  have hstep : cmul (gr, gi) (cadd z (1, 0)) = csub z (1, 0) := by
    simp only [cmul, cadd, csub]
    rw [hz1, hz2, Prod.mk.injEq]
    constructor <;> (field_simp; ring)
  have hdiv : cmul (z_to_gamma z) (cadd z (1, 0)) = csub z (1, 0) :=
    cdiv_cmul (csub z (1, 0)) (cadd z (1, 0)) hb
  exact cmul_right_cancel hb (hdiv.trans hstep.symm)

/-- Witness for C5 at the concrete reflection coefficient `0.5 + 0.25i`. -/
theorem c5_gamma_round_trip_witness :
    ((1 / 2 : ℚ), (1 / 4 : ℚ)) ≠ ((1 : ℚ), (0 : ℚ)) ∧
    z_to_gamma (gamma_to_z ((1 / 2 : ℚ), (1 / 4 : ℚ))) = (1 / 2, 1 / 4) :=
  ⟨by norm_num [Prod.ext_iff], c5_gamma_round_trip (1 / 2, 1 / 4) (by norm_num [Prod.ext_iff])⟩

/-- C6: the painted constant-resistance circle has normalized centre
`(r/(1+r), 0)` and normalized radius `1/(1+r)` for every `r ≥ 0`; in
particular `r = 0` gives centre `(0,0)` and radius `1` (the outer rim) and
`r = 1` gives centre `(0.5, 0)` and radius `0.5`. -/
theorem c6_resistance_circle_geometry (rect : Rect ℚ) (stroke : ℚ × ColorV)
    (r : ℚ) (_hr : 0 ≤ r) :
    resistance_circle rect r stroke =
      Cmd.circle (local_to_abs rect (r / (1 + r), 0)) (scale rect (1 / (1 + r)))
        ColorV.transparent stroke ∧
    resistance_circle rect 0 stroke =
      Cmd.circle (local_to_abs rect (0, 0)) (scale rect 1)
        ColorV.transparent stroke ∧
    resistance_circle rect 1 stroke =
      Cmd.circle (local_to_abs rect (1 / 2, 0)) (scale rect (1 / 2))
        ColorV.transparent stroke := by
  refine ⟨rfl, ?_, ?_⟩ <;> norm_num [resistance_circle]

/-- Witness for C6 at a concrete rectangle, stroke and parameter `r = 3`. -/
theorem c6_resistance_circle_witness :
    (0 : ℚ) ≤ 3 ∧
    (resistance_circle (⟨0, 0, 400, 400⟩ : Rect ℚ) 3 (1, ColorV.fg) =
       Cmd.circle (local_to_abs ⟨0, 0, 400, 400⟩ ((3 : ℚ) / (1 + 3), 0))
         (scale ⟨0, 0, 400, 400⟩ (1 / (1 + 3))) ColorV.transparent (1, ColorV.fg) ∧
     resistance_circle (⟨0, 0, 400, 400⟩ : Rect ℚ) 0 (1, ColorV.fg) =
       Cmd.circle (local_to_abs ⟨0, 0, 400, 400⟩ (0, 0))
         (scale ⟨0, 0, 400, 400⟩ 1) ColorV.transparent (1, ColorV.fg) ∧
     resistance_circle (⟨0, 0, 400, 400⟩ : Rect ℚ) 1 (1, ColorV.fg) =
       Cmd.circle (local_to_abs ⟨0, 0, 400, 400⟩ (1 / 2, 0))
         (scale ⟨0, 0, 400, 400⟩ (1 / 2)) ColorV.transparent (1, ColorV.fg)) :=
  ⟨by norm_num,
   c6_resistance_circle_geometry ⟨0, 0, 400, 400⟩ (1, ColorV.fg) 3 (by norm_num)⟩

/-- C2 (amended): the code applies `f32::sqrt` directly, with no clamp; for
every reactance parameter `x ≠ 0` and every sample index `i ≤ 128` the
radicand of the square root is nonnegative in exact arithmetic, so the
sampled point is finite and no NaN arises (a clamp would be a no-op).  The
degenerate `x = 0` case produces non-finite points instead (see the
counterexample in the IEEE model `F`). -/
theorem c2_radicand_nonneg (x : ℝ) (hx : x ≠ 0) (i : ℕ) (hi : i ≤ 128) :
    0 ≤ sample_radicand x i := by
  have ht0 : (0 : ℝ) ≤ (i : ℝ) / 128 := by positivity
  have ht1 : (i : ℝ) / 128 ≤ 1 := by
    rw [div_le_one (by norm_num)]
    exact_mod_cast hi
  unfold sample_radicand
  by_cases h : 1 ≤ |x|
  · rw [if_pos h, remap_01]
    set t := (i : ℝ) / 128 with htdef
    have hx2 : (0 : ℝ) < 1 + x ^ 2 := by positivity
    have key : (t * yend x * (2 - x * (t * yend x))) / x
        = 4 * t * (1 + (1 - t) * x ^ 2) / (1 + x ^ 2) ^ 2 := by
      simp only [yend]
      field_simp
      ring
    rw [key]
    apply div_nonneg
    · have h1t : (0 : ℝ) ≤ 1 - t := by linarith
      have : (0 : ℝ) ≤ 1 + (1 - t) * x ^ 2 := by nlinarith [sq_nonneg x]
      nlinarith
    · positivity
  · rw [if_neg h, remap_xs, zpow_neg_two_eq]
    set t := (i : ℝ) / 128 with htdef
    have hx0 : (0 : ℝ) < x ^ 2 := by positivity
    have hx2 : (0 : ℝ) < x ^ 2 + 1 := by positivity
    have hgr : (1 - t) * xstart x + t - 1 = -(2 * (1 - t)) / (x ^ 2 + 1) := by
      simp only [xstart]
      field_simp
      ring
    rw [sub_nonneg, hgr, div_pow, div_le_div_iff₀ (by positivity) hx0]
    have hu2 : (1 - t) ^ 2 ≤ 1 := by nlinarith
    nlinarith [hu2, sq_nonneg (x ^ 2 - 1), hx0.le,
      mul_le_mul_of_nonneg_right hu2 hx0.le]

/-- Witness for the amended C2 at `x = 1`, sample index 64. -/
theorem c2_radicand_nonneg_witness :
    (1 : ℝ) ≠ 0 ∧ 0 ≤ sample_radicand 1 64 :=
  ⟨by norm_num, c2_radicand_nonneg 1 (by norm_num) 64 (by norm_num)⟩

/-- C7: mirror symmetry of the reactance arcs — for every nonzero reactance
parameter `x` and sample index `i ≤ 128`, the `i`-th normalized point for
`-x` is the `i`-th point for `x` with its y coordinate negated and x
coordinate preserved. -/
theorem c7_reactance_mirror (x : ℝ) (hx : x ≠ 0) (i : ℕ) (_hi : i ≤ 128) :
    reactance_point (-x) i = ((reactance_point x i).1, -(reactance_point x i).2) :=
  reactance_point_neg x hx i

/-- Witness for C7 at `x = 3`, sample index 0. -/
theorem c7_reactance_mirror_witness :
    (3 : ℝ) ≠ 0 ∧
    reactance_point (-3) 0 = ((reactance_point 3 0).1, -(reactance_point 3 0).2) :=
  ⟨by norm_num, c7_reactance_mirror 3 (by norm_num) 0 (by norm_num)⟩

/-- C8: containment — for every reactance parameter with `|x|` in
`[0.01, 100]` and every sample index `i ≤ 128`, the sampled normalized point
lies within distance `1 + 1e-4` of the origin (in exact arithmetic it lies
at or inside the unit circle). -/
theorem c8_reactance_containment (x : ℝ) (h1 : 1 / 100 ≤ |x|) (_h2 : |x| ≤ 100)
    (i : ℕ) (hi : i ≤ 128) :
    Real.sqrt ((reactance_point x i).1 ^ 2 + (reactance_point x i).2 ^ 2) ≤
      1 + 1 / 10000 := by
  have hx0 : x ≠ 0 := by
    intro h
    rw [h, abs_zero] at h1
    norm_num at h1
  have hnorm : (reactance_point x i).1 ^ 2 + (reactance_point x i).2 ^ 2 ≤ 1 := by
    rcases hx0.lt_or_lt with hneg | hpos
    · have hmx : 0 < -x := by linarith
      have hmain := normsq_le_one_pos (-x) hmx i hi
      have hmir := reactance_point_neg (-x) hmx.ne' i
      rw [neg_neg] at hmir
      rw [hmir]
      dsimp only
      rw [neg_sq]
      exact hmain
    · exact normsq_le_one_pos x hpos i hi
  calc Real.sqrt ((reactance_point x i).1 ^ 2 + (reactance_point x i).2 ^ 2)
      ≤ Real.sqrt 1 := Real.sqrt_le_sqrt hnorm
    _ = 1 := Real.sqrt_one
    _ ≤ 1 + 1 / 10000 := by norm_num

/-- Witness for C8 at `x = 1`, sample index 0. -/
theorem c8_reactance_containment_witness :
    (1 / 100 : ℝ) ≤ |(1 : ℝ)| ∧ |(1 : ℝ)| ≤ 100 ∧
    Real.sqrt ((reactance_point 1 0).1 ^ 2 + (reactance_point 1 0).2 ^ 2) ≤
      1 + 1 / 10000 :=
  ⟨by norm_num, by norm_num,
   c8_reactance_containment 1 (by norm_num) (by norm_num) 0 (by norm_num)⟩

/-- C10: frame property of the fluent setters — each of `plane`, `size`,
`mouse_vswr` and `debug` changes exactly the field it names and leaves every
other field (in particular `id_source` and `Z0`) unchanged. -/
theorem c10_builder_frame (K : Type) (c : SmithChart K) (p : Plane) (s : K)
    (v d : Bool) :
    ((c.plane' p).id_source = c.id_source ∧ (c.plane' p).Z0 = c.Z0 ∧
     (c.plane' p).size = c.size ∧ (c.plane' p).debug = c.debug ∧
     (c.plane' p).mouse_vswr = c.mouse_vswr ∧ (c.plane' p).plane = p) ∧
    ((c.size' s).id_source = c.id_source ∧ (c.size' s).Z0 = c.Z0 ∧
     (c.size' s).plane = c.plane ∧ (c.size' s).debug = c.debug ∧
     (c.size' s).mouse_vswr = c.mouse_vswr ∧ (c.size' s).size = s) ∧
    ((c.mouse_vswr' v).id_source = c.id_source ∧ (c.mouse_vswr' v).Z0 = c.Z0 ∧
     (c.mouse_vswr' v).plane = c.plane ∧ (c.mouse_vswr' v).size = c.size ∧
     (c.mouse_vswr' v).debug = c.debug ∧ (c.mouse_vswr' v).mouse_vswr = v) ∧
    ((c.debug' d).id_source = c.id_source ∧ (c.debug' d).Z0 = c.Z0 ∧
     (c.debug' d).plane = c.plane ∧ (c.debug' d).size = c.size ∧
     (c.debug' d).mouse_vswr = c.mouse_vswr ∧ (c.debug' d).debug = d) :=
  ⟨⟨rfl, rfl, rfl, rfl, rfl, rfl⟩, ⟨rfl, rfl, rfl, rfl, rfl, rfl⟩,
   ⟨rfl, rfl, rfl, rfl, rfl, rfl⟩, ⟨rfl, rfl, rfl, rfl, rfl, rfl⟩⟩

/-- C1 counterexample: contrary to the claim, neither conversion detects its
singular input.  `gamma_to_z` at `gamma = 1` and `z_to_gamma` at `z = -1`
perform the complex division with zero `norm_sqr` and produce NaN in both
components — the division is performed and NaN is produced, no at-infinity
sentinel is returned. -/
theorem c1_singular_counterexample :
    gamma_to_zF (F.fin 1, F.fin 0) = (F.nan, F.nan) ∧
    z_to_gammaF (F.fin (-1), F.fin 0) = (F.nan, F.nan) :=
  ⟨gamma_to_zF_one, z_to_gammaF_neg_one⟩

/-- C1 (amended): the conversions are unguarded — `gamma_to_z 1` and
`z_to_gamma (-1)` divide by a zero `norm_sqr`, producing NaN components —
but the render path's pointer guard `length < 1` fails at the local
position `(1, 0)` corresponding to `gamma = 1`, so that singular input never
reaches interactive curve generation. -/
theorem c1_singular_amended :
    gamma_to_zF (F.fin 1, F.fin 0) = (F.nan, F.nan) ∧
    z_to_gammaF (F.fin (-1), F.fin 0) = (F.nan, F.nan) ∧
    ¬ mouse_in_chart (1, 0) :=
  ⟨gamma_to_zF_one, z_to_gammaF_neg_one, not_mouse_in_chart_one⟩

/-- C2 counterexample: at the reactance parameter `x = 0` (reachable from
the mouse path) and sample index 1, the generated point's y coordinate is
+inf — not a finite number — refuting the claim that every generated
polyline point is finite for every parameter. -/
theorem c2_zero_not_finite_counterexample :
    (reactance_pointF (F.fin 0) 1).2 = F.pinf := by
  have habs : ¬ F.absGeOne (F.fin 0) := by
    simp [F.absGeOne]
  rw [reactance_pointF, if_neg habs]
  have hxs : xstartF (F.fin 0) = F.fin (-1) := by
    simp only [xstartF, F.powf2, F.mul, F.sub, F.add, F.neg, F.div]
    norm_num
  have hremap : remapF (F.fin 1) (F.fin 0) (F.fin 128) (xstartF (F.fin 0)) (F.fin 1)
      = F.fin ((1 - (1 - 0) / (128 - 0)) * (-1) + (1 - 0) / (128 - 0) * 1) := by
    rw [hxs]
    simp only [remapF, F.div, F.sub, F.add, F.neg, F.mul]
    norm_num
  dsimp only
  rw [Nat.cast_one, hremap, x_lt_one_arcF_zero]

/-- C3: the code has no straight-line special case for `x = 0` — the
`|x| < 1` branch is taken and the `1/x` formula produces points with y
coordinate +inf (the first sampled point is `(-1, +inf)`). -/
theorem c3_zero_reactance_general_formula :
    reactance_pointF (F.fin 0) 0 = (F.fin (-1), F.pinf) := by
  simp only [reactance_pointF, F.absGeOne, xstartF, remapF, x_lt_one_arcF,
    F.gtZero, F.powfNeg2, F.powf2, F.div, F.mul, F.sub, F.add, F.neg, F.sqrt]
  norm_num

/-- C9: plane-selector noninterference — two render invocations that agree
on everything (rectangle, hover position, visibility, style expansion and
all other configuration fields) and differ only in the `plane` field
produce the same list of painter calls; the render path never reads the
selector and always draws the impedance-family curves. -/
theorem c9_plane_noninterference (c : SmithChart ℝ) (p q : Plane) (rect : Rect ℝ)
    (hover : Option (ℝ × ℝ)) (visible : Bool) (expansion : ℝ) :
    showDraw (c.plane' p) rect hover visible expansion =
      showDraw (c.plane' q) rect hover visible expansion := rfl

end EguiSmith
